import Mathlib

/-!
Verification of the split-calculation core of DendroPy (`dendropy/splits.py`):
bitmask encoding of tree bipartitions (`encode_splits` and the pure bit
utilities) and the streaming `SplitDistribution` aggregator.

The embedding below translates `splits.py` directly.  The external
collaborators that `splits.py` imports (the taxon registry `taxa.TaxaBlock`
and the tree model in `trees.py`) are not part of the verified source; the
few operations of theirs that `splits.py` consumes are modelled from the
specification's description of their contracts, and are marked as such in
their doc comments.

Python values are modelled as follows: arbitrary-precision non-negative
integers (the split masks) as `Nat`, float edge lengths and node ages as `ℚ`
(the aggregator only ever stores these values or the literal `0.0`, it never
computes with them, so exact rationals model the floats faithfully), and
Python `dict`s as insertion-ordered association lists with unique keys.
-/

namespace DendroPySplits

/-! ### Python dict model

A Python `dict` with `Nat` keys: an insertion-ordered association list.
Assigning to an existing key overwrites its value in place (the key keeps
its position); assigning to a fresh key appends it at the end.  Iteration
(`for k in d`) visits the pairs in list order.  Keys are unique by
construction. -/

abbrev Dict (β : Type) : Type := List (Nat × β)

def dictGet? {β : Type} : Dict β → Nat → Option β
  | [], _ => none
  | (k', v') :: rest, k => if k' = k then some v' else dictGet? rest k

/-- `d[k] = v` in Python: overwrite in place if present, else append. -/
def dictInsert {β : Type} : Dict β → Nat → β → Dict β
  | [], k, v => [(k, v)]
  | (k', v') :: rest, k, v =>
    if k' = k then (k, v) :: rest else (k', v') :: dictInsert rest k v

/-- `k in d` in Python. -/
def dictContains {β : Type} (d : Dict β) (k : Nat) : Bool :=
  (dictGet? d k).isSome

/-- `d.keys()` in Python (insertion order). -/
def dictKeys {β : Type} (d : Dict β) : List Nat :=
  d.map Prod.fst

theorem dictGet?_insert_self {β : Type} (d : Dict β) (k : Nat) (v : β) :
    dictGet? (dictInsert d k v) k = some v := by
  induction d with
  | nil => simp [dictInsert, dictGet?]
  | cons p rest ih =>
    obtain ⟨k', v'⟩ := p
    by_cases h : k' = k
    · simp [dictInsert, h, dictGet?]
    · simp [dictInsert, h, dictGet?, ih]

theorem dictGet?_insert_ne {β : Type} (d : Dict β) (k k' : Nat) (v : β)
    (h : k' ≠ k) : dictGet? (dictInsert d k v) k' = dictGet? d k' := by
  have hne : ¬k = k' := fun hh => h hh.symm
  induction d with
  | nil => simp [dictInsert, dictGet?, hne]
  | cons p rest ih =>
    obtain ⟨k₀, v₀⟩ := p
    by_cases h₀ : k₀ = k
    · subst h₀
      simp [dictInsert, dictGet?, hne]
    · simp [dictInsert, h₀, dictGet?, ih]

theorem dictKeys_insert_of_contains {β : Type} (d : Dict β) (k : Nat) (v : β)
    (h : dictContains d k = true) :
    dictKeys (dictInsert d k v) = dictKeys d := by
  induction d with
  | nil => simp [dictContains, dictGet?] at h
  | cons p rest ih =>
    obtain ⟨k₀, v₀⟩ := p
    by_cases h₀ : k₀ = k
    · simp [dictInsert, h₀, dictKeys]
    · simp [dictContains, dictGet?, h₀] at h
      have h' : dictContains rest k = true := by simp [dictContains, h]
      simp [dictInsert, h₀, dictKeys]
      simpa [dictKeys] using ih h'

theorem dictKeys_insert_of_not_contains {β : Type} (d : Dict β) (k : Nat) (v : β)
    (h : dictContains d k = false) :
    dictKeys (dictInsert d k v) = dictKeys d ++ [k] := by
  induction d with
  | nil => simp [dictInsert, dictKeys]
  | cons p rest ih =>
    obtain ⟨k₀, v₀⟩ := p
    by_cases h₀ : k₀ = k
    · simp [dictContains, dictGet?, h₀] at h
    · simp [dictContains, dictGet?, h₀] at h
      have h' : dictContains rest k = false := by simp [dictContains, h]
      simp [dictInsert, h₀, dictKeys]
      simpa [dictKeys] using ih h'

theorem dictContains_iff_mem_keys {β : Type} (d : Dict β) (k : Nat) :
    dictContains d k = true ↔ k ∈ dictKeys d := by
  induction d with
  | nil => simp [dictContains, dictGet?, dictKeys]
  | cons p rest ih =>
    obtain ⟨k₀, v₀⟩ := p
    by_cases h₀ : k₀ = k
    · simp [dictContains, dictGet?, h₀, dictKeys]
    · simp [dictContains, dictGet?, h₀, dictKeys, Ne.symm h₀]
      simpa [dictContains, dictKeys] using ih

theorem dictGet?_isSome_iff_mem_keys {β : Type} (d : Dict β) (k : Nat) :
    (dictGet? d k).isSome = true ↔ k ∈ dictKeys d :=
  dictContains_iff_mem_keys d k

/-- Looking up a value in a dict built from a map over the values. -/
theorem dictGet?_mapValues {β γ : Type} (f : β → γ) (d : Dict β) (k : Nat) :
    dictGet? (d.map (fun p => (p.1, f p.2)) : Dict γ) k
      = (dictGet? d k).map f := by
  induction d with
  | nil => simp [dictGet?]
  | cons p rest ih =>
    obtain ⟨k₀, v₀⟩ := p
    by_cases h₀ : k₀ = k
    · simp [dictGet?, h₀]
    · simp [dictGet?, h₀, ih]

/-! ### Taxon registry

Modelled from the spec: the external Taxon Registry (`taxa.TaxaBlock`)
"assigns every taxon a stable, unique non-negative integer index for the
lifetime of an analysis; exposes a single-bit mask for one taxon and a full
mask covering all registered taxa".  A taxon is identified by an arbitrary
type with decidable equality; a registry is the ordered list of registered
taxa, a taxon's bit index is its position in that list. -/

/-- Modelled from the spec: `TaxaBlock.taxon_bitmask(taxon)` — the
single-bit mask `2 ^ i` where `i` is the taxon's registered index. -/
def taxon_bitmask {α : Type} [DecidableEq α] (taxa_block : List α) (t : α) : Nat :=
  2 ^ taxa_block.indexOf t

/-- Modelled from the spec: `TaxaBlock.all_taxa_bitmask()` — the full mask
covering all registered taxa, one bit per taxon. -/
def all_taxa_bitmask {α : Type} (taxa_block : List α) : Nat :=
  2 ^ taxa_block.length - 1

/-! ### Tree model

Modelled from the spec: the external Tree Model exposes "postorder edge
traversal, per-node children/taxon access, edge length, an 'unrooted view'
normalization operation, and a node-to-tip distance query".  Every node
carries the edge that joins it to its parent (the node is that edge's head
node), so an edge is identified with its head node.  `taxon` is the head
node's taxon (if any), `length` the edge's length (if any), and `age` the
value of the head node's `distance_from_tip()` query. -/

inductive Node : Type where
  | mk : Option Nat → Option ℚ → ℚ → List Node → Node

def Node.taxon : Node → Option Nat
  | .mk t _ _ _ => t

def Node.length : Node → Option ℚ
  | .mk _ l _ _ => l

def Node.age : Node → ℚ
  | .mk _ _ a _ => a

def Node.children : Node → List Node
  | .mk _ _ _ cs => cs

mutual

/-- Modelled from the spec: the set of taxa referenced by a tree, needed
only to state when taxon normalization fails. -/
def treeTaxa : Node → List Nat
  | .mk t _ _ cs =>
    (match t with | some tx => [tx] | none => []) ++ treeTaxaList cs

def treeTaxaList : List Node → List Nat
  | [] => []
  | c :: cs => treeTaxa c ++ treeTaxaList cs

end

mutual

/-- `tree.postorder_edge_iter()`: edges (identified with their head nodes)
in postorder — all edges of the child subtrees, left to right, then the
node's own edge. -/
def postorderNodes : Node → List Node
  | .mk t l a cs => postorderNodesList cs ++ [.mk t l a cs]

def postorderNodesList : List Node → List Node
  | [] => []
  | c :: cs => postorderNodes c ++ postorderNodesList cs

end

mutual

/-- The split mask `encode_splits` stores on each edge
(`setattr(edge, edge_split_mask, ...)`): for an edge whose head node has
children, the running bitwise OR (starting from 0) of the children's edge
masks, which in postorder are already computed; for a leaf edge, the head
node's taxon bit if it has a taxon, else 0. -/
def edgeSplitMask (taxa_block : List Nat) : Node → Nat
  | .mk t _ _ [] =>
    match t with
    | some i => taxon_bitmask taxa_block i
    | none => 0
  | .mk _ _ _ (c :: cs) => childrenOrMask taxa_block 0 (c :: cs)

/-- The `for child in children: mask |= child.edge.split_mask` loop. -/
def childrenOrMask (taxa_block : List Nat) (acc : Nat) : List Node → Nat
  | [] => acc
  | c :: cs => childrenOrMask taxa_block (acc ||| edgeSplitMask taxa_block c) cs

end

/-! ### The pure functions of `splits.py` -/

/-- `is_non_singleton_split(split)`: returns `(split-1) & split`, a Python
`int` used for its truthiness (non-zero means the split has more than one
bit set, i.e. is non-trivial).  Python ints are signed and of arbitrary
precision, so the translation is over `ℤ` with two's-complement bitwise
`and`. -/
def is_non_singleton_split (split : ℤ) : ℤ :=
  Int.land (split - 1) split

/-- `number_to_bitstring(num)`: `num>0 and number_to_bitstring(num>>1)+str(num&1) or ''`.
The recursive branch never produces an empty (falsy) string, so this is:
empty for `num = 0`, else the bits of `num` most-significant first.
Python strings are modelled as `List Char`. -/
def number_to_bitstring (num : Nat) : List Char :=
  if h : 0 < num then
    number_to_bitstring (num >>> 1) ++ [if num &&& 1 = 1 then '1' else '0']
  else []
decreasing_by
  simpa [Nat.shiftRight_one] using Nat.div_lt_self h one_lt_two

/-- `s.rjust(width, '0')` for a fill character: left-pad to `width`; a
string already at least `width` long is returned unchanged. -/
def rjust (s : List Char) (width : Nat) (fill : Char) : List Char :=
  List.replicate (width - s.length) fill ++ s

/-- `s.replace(old, new)` for single-character `old` and `new`. -/
def strReplaceChar (s : List Char) (old new : Char) : List Char :=
  s.map fun c => if c = old then new else c

/-- `split_as_string(split_mask, taxa_block, symbol1, symbol2)` (defaults
`symbol1='.'`, `symbol2='*'`): the bitstring of the mask right-justified to
`len(taxa_block)` with `'0'`, then `'0'` replaced by `symbol1` and, in the
resulting string, `'1'` replaced by `symbol2` — two successive `replace`
calls, in that order. -/
def split_as_string {α : Type} (split_mask : Nat) (taxa_block : List α)
    (symbol1 symbol2 : Char) : List Char :=
  let s := rjust (number_to_bitstring split_mask) taxa_block.length '0'
  strReplaceChar (strReplaceChar s '0' symbol1) '1' symbol2

/-- `split_as_string_rev`: the same, reversed (`[::-1]`). -/
def split_as_string_rev {α : Type} (split_mask : Nat) (taxa_block : List α)
    (symbol1 symbol2 : Char) : List Char :=
  (split_as_string split_mask taxa_block symbol1 symbol2).reverse

/-- `split_taxa_list(split_mask, taxa_block, index=0)`: scan bits
low-to-high, appending `taxa_block[index]` for each set bit.  The Python
indexing `taxa_block[index]` raises `IndexError` when out of range, so the
translation returns an `Option`, `none` modelling the raised exception. -/
def split_taxa_list {α : Type} (taxa_block : List α) (split_mask : Nat)
    (index : Nat) : Option (List α) :=
  if h : 0 < split_mask then
    if split_mask &&& 1 = 1 then
      match taxa_block[index]? with
      | some t =>
        (split_taxa_list taxa_block (split_mask >>> 1) (index + 1)).map (t :: ·)
      | none => none
    else split_taxa_list taxa_block (split_mask >>> 1) (index + 1)
  else some []
decreasing_by
  all_goals simpa [Nat.shiftRight_one] using Nat.div_lt_self h one_lt_two

/-! ### `encode_splits` -/

/-- The collections `encode_splits` computes and attaches to the tree.  The
attribute-name parameters (`edge_split_mask`, `tree_split_edges_map`, ...)
only choose the attribute names under which each collection is attached and
default to truthy strings, so every collection below is computed on the
default path; per-edge masks are `edgeSplitMask`.  (The optional
`tree_split_taxa_map` branch, which applies `split_taxa_list` to every key
of the split map, is not used by any downstream caller modelled here:
`count_splits_on_tree` passes `tree_split_taxa_map=None`.)  `tree.splits`
is `set(split_map.keys())` in Python — iteration order of a `set` is
unspecified; the keys are pairwise distinct, and the model fixes their
first-insertion order. -/
structure EncodeResult where
  split_map : Dict Node
  splits : List Nat
  complemented_splits : List Nat
  complemented_split_edges : Dict Node

/-- `encode_splits(tree, taxa_block, ...)`: walk the edges in postorder,
record each edge's split mask (`split_map[mask] = edge`, a later edge
overwriting an earlier one with the same mask), then derive the mask set,
the complement map `csplit_edges[split ^ taxa_mask] = split_map[split]`
and the complement set. -/
def encode_splits (taxa_block : List Nat) (tree : Node) : EncodeResult :=
  let split_map : Dict Node :=
    (postorderNodes tree).foldl
      (fun m e => dictInsert m (edgeSplitMask taxa_block e) e) []
  let taxa_mask := all_taxa_bitmask taxa_block
  let csplit_edges : Dict Node :=
    split_map.foldl (fun m p => dictInsert m (p.1 ^^^ taxa_mask) p.2) []
  { split_map := split_map
    splits := dictKeys split_map
    complemented_splits := dictKeys csplit_edges
    complemented_split_edges := csplit_edges }

/-! ### `SplitDistribution` -/

/-- The state of a `SplitDistribution` object.  The two `__*_freqs` caches
start out `None` (`none`), and `__trees_counted_for_freqs` records the
value of `total_trees_counted` the caches were computed at. -/
structure SplitDistribution where
  total_trees_counted : Nat
  taxa_block : List Nat
  splits : List Nat
  complemented_splits : List Nat
  split_counts : Dict Nat
  complemented_split_counts : Dict Nat
  split_edge_lengths : Dict (List ℚ)
  split_node_ages : Dict (List ℚ)
  ignore_edge_lengths : Bool
  ignore_node_ages : Bool
  split_freqs : Option (Dict ℚ)
  complemented_split_freqs : Option (Dict ℚ)
  trees_counted_for_freqs : Nat
deriving DecidableEq

namespace SplitDistribution

/-- `SplitDistribution.__init__(taxa_block)`: everything empty / zero, both
ignore flags `False`, both frequency caches `None`.  (With no `taxa_block`
argument a fresh empty `TaxaBlock` is created, i.e. `taxa_block = []`.) -/
def init (taxa_block : List Nat) : SplitDistribution :=
  { total_trees_counted := 0
    taxa_block := taxa_block
    splits := []
    complemented_splits := []
    split_counts := []
    complemented_split_counts := []
    split_edge_lengths := []
    split_node_ages := []
    ignore_edge_lengths := false
    ignore_node_ages := false
    split_freqs := none
    complemented_split_freqs := none
    trees_counted_for_freqs := 0 }

/-- The body of the `for s in self.split_counts` loop of
`splits_considered`: always `num_unique_splits += 1` and
`num_splits += self.split_counts[s]`; when `is_non_singleton_split(s)` is
truthy (non-zero) also `num_nt_unique_splits += 1` and
`num_nt_splits += self.split_counts[s]`.  The accumulator is
`(num_splits, num_unique_splits, num_nt_splits, num_nt_unique_splits)`,
the order the method returns. -/
def considered_step (acc : Nat × Nat × Nat × Nat) (p : Nat × Nat) :
    Nat × Nat × Nat × Nat :=
  let acc := (acc.1 + p.2, acc.2.1 + 1, acc.2.2.1, acc.2.2.2)
  if is_non_singleton_split (p.1 : ℤ) ≠ 0 then
    (acc.1, acc.2.1, acc.2.2.1 + p.2, acc.2.2.2 + 1)
  else acc

/-- `splits_considered()`: one pass over `split_counts`.  Python iterates
the dict's keys and reads `self.split_counts[s]`; dict keys are unique, so
the pair's own value is that lookup. -/
def splits_considered (sd : SplitDistribution) : Nat × Nat × Nat × Nat :=
  sd.split_counts.foldl considered_step (0, 0, 0, 0)

/-- `calc_freqs()`: recompute both frequency dicts from the count dicts
(`float(count) / total`, with `total = 1` when no tree has been counted
yet), remember the `total_trees_counted` they were computed at, and return
them.  Python builds each result dict by assigning over the unique keys of
the count dict in iteration order, which is exactly a map over its
entries; float division is modelled exactly in `ℚ`. -/
def calc_freqs (sd : SplitDistribution) : (Dict ℚ × Dict ℚ) × SplitDistribution :=
  let total : Nat := if sd.total_trees_counted = 0 then 1 else sd.total_trees_counted
  let sf : Dict ℚ := sd.split_counts.map fun p => (p.1, (p.2 : ℚ) / (total : ℚ))
  let cf : Dict ℚ := sd.complemented_split_counts.map fun p => (p.1, (p.2 : ℚ) / (total : ℚ))
  ((sf, cf),
   { sd with
     split_freqs := some sf
     complemented_split_freqs := some cf
     trees_counted_for_freqs := sd.total_trees_counted })

/-- `_get_split_frequencies` (the `split_frequencies` property): recompute
via `calc_freqs` when the cache is `None` or stale, then return the cached
dict. -/
def get_split_frequencies (sd : SplitDistribution) : Dict ℚ × SplitDistribution :=
  let sd :=
    if sd.split_freqs.isNone ∨ sd.trees_counted_for_freqs ≠ sd.total_trees_counted
    then (calc_freqs sd).2 else sd
  (sd.split_freqs.getD [], sd)

/-- `_get_complemented_split_frequencies` (the
`complemented_split_frequencies` property). -/
def get_complemented_split_frequencies (sd : SplitDistribution) :
    Dict ℚ × SplitDistribution :=
  let sd :=
    if sd.complemented_split_freqs.isNone ∨
        sd.trees_counted_for_freqs ≠ sd.total_trees_counted
    then (calc_freqs sd).2 else sd
  (sd.complemented_split_freqs.getD [], sd)

end SplitDistribution

/-- Modelled from the spec: `tree.normalize_taxa(taxa_block)` of the
external Tree Model maps the tree's taxa onto the shared registry and
"fails if the tree references an unregistered taxon — aborts before
mutating any aggregator state".  `none` models the raised exception. -/
def normalize_taxa (tree : Node) (taxa_block : List Nat) : Option Node :=
  if (treeTaxa tree).all (· ∈ taxa_block) then some tree else none

/-- Modelled from the spec: `tree.deroot()` of the external Tree Model
forces the tree into its unrooted view.  Its effect on the topology is
internal to the Tree Model; the aggregator claims quantify over all trees,
so it is modelled as the identity on the (already unrooted) tree. -/
def deroot (tree : Node) : Node := tree

namespace SplitDistribution

/-- First group of statements of the `for split in tree.splits` loop body
of `count_splits_on_tree`: bump `split_counts[split]`, recording a
first-sighted split in `self.splits`. -/
def count_split_step_counts (sd : SplitDistribution) (split : Nat) :
    SplitDistribution :=
  if dictContains sd.split_counts split then
    let c := (dictGet? sd.split_counts split).getD 0
    { sd with split_counts := dictInsert sd.split_counts split (c + 1) }
  else
    { sd with
      splits := sd.splits ++ [split]
      split_counts := dictInsert sd.split_counts split 1 }

/-- Second group: unless `ignore_edge_lengths`, make sure
`split_edge_lengths[split]` exists and append
`tree.split_edges[split].length` to it, with `0.0` standing in for a
`None` length.  `tree.split_edges[split]` always succeeds because
`tree.splits` is exactly the key set of `tree.split_edges`; the `none`
fallback below is unreachable. -/
def count_split_step_lengths (r : EncodeResult) (sd : SplitDistribution)
    (split : Nat) : SplitDistribution :=
  if sd.ignore_edge_lengths then sd
  else
    let sd :=
      if dictContains sd.split_edge_lengths split then sd
      else { sd with split_edge_lengths := dictInsert sd.split_edge_lengths split [] }
    match dictGet? r.split_map split with
    | some edge =>
      let entry : ℚ := (edge.length).getD 0
      let l := (dictGet? sd.split_edge_lengths split).getD []
      { sd with split_edge_lengths := dictInsert sd.split_edge_lengths split (l ++ [entry]) }
    | none => sd

/-- Third group: unless `ignore_node_ages`, make sure
`split_node_ages[split]` exists and append the head node's
`distance_from_tip()`.  The edge's head node is the edge itself in this
model, so `edge.head_node is not None` always holds. -/
def count_split_step_ages (r : EncodeResult) (sd : SplitDistribution)
    (split : Nat) : SplitDistribution :=
  if sd.ignore_node_ages then sd
  else
    let sd :=
      if dictContains sd.split_node_ages split then sd
      else { sd with split_node_ages := dictInsert sd.split_node_ages split [] }
    match dictGet? r.split_map split with
    | some edge =>
      let l := (dictGet? sd.split_node_ages split).getD []
      { sd with split_node_ages := dictInsert sd.split_node_ages split (l ++ [edge.age]) }
    | none => sd

/-- The whole body of the `for split in tree.splits` loop, in statement
order. -/
def count_split_step (r : EncodeResult) (sd : SplitDistribution) (split : Nat) :
    SplitDistribution :=
  count_split_step_ages r (count_split_step_lengths r
    (count_split_step_counts sd split) split) split

/-- The body of the `for split in tree.complemented_splits` loop. -/
def count_csplit_step (sd : SplitDistribution) (split : Nat) :
    SplitDistribution :=
  if dictContains sd.complemented_split_counts split then
    let c := (dictGet? sd.complemented_split_counts split).getD 0
    { sd with complemented_split_counts :=
        dictInsert sd.complemented_split_counts split (c + 1) }
  else
    { sd with
      complemented_splits := sd.complemented_splits ++ [split]
      complemented_split_counts :=
        dictInsert sd.complemented_split_counts split 1 }

/-- `count_splits_on_tree(tree)`: increment `total_trees_counted`, then
normalize the tree's taxa (which may raise), deroot, encode, and fold both
per-split loops.  A raised exception is modelled as `Except.error` carrying
the state the object was left in when the exception escaped — the
increment of `total_trees_counted` has already happened at that point. -/
def count_splits_on_tree (sd : SplitDistribution) (tree : Node) :
    Except SplitDistribution SplitDistribution :=
  let sd := { sd with total_trees_counted := sd.total_trees_counted + 1 }
  match normalize_taxa tree sd.taxa_block with
  | none => .error sd
  | some tree =>
    let tree := deroot tree
    let r := encode_splits sd.taxa_block tree
    let sd := r.splits.foldl (count_split_step r) sd
    let sd := r.complemented_splits.foldl count_csplit_step sd
    .ok sd

end SplitDistribution

/-- The `SplitDistribution` states reachable from a freshly constructed
object by a sequence of successful `count_splits_on_tree` calls. -/
inductive Reachable : SplitDistribution → Prop where
  | init (taxa_block : List Nat) : Reachable (SplitDistribution.init taxa_block)
  | step {sd sd' : SplitDistribution} {tree : Node} :
      Reachable sd →
      sd.count_splits_on_tree tree = .ok sd' →
      Reachable sd'

/-! ### Bit-level lemmas for `is_non_singleton_split` -/

theorem nat_land_eq_zero_iff (a b : ℕ) :
    a &&& b = 0 ↔ ∀ i, ¬(a.testBit i = true ∧ b.testBit i = true) := by
  constructor
  · rintro h i ⟨h1, h2⟩
    have := congrArg (fun x => x.testBit i) h
    simp [Nat.testBit_land, h1, h2] at this
  · intro h
    apply Nat.eq_of_testBit_eq
    intro i
    rw [Nat.testBit_land, Nat.zero_testBit]
    cases h1 : a.testBit i
    · simp
    · cases h2 : b.testBit i
      · simp
      · exact absurd ⟨h1, h2⟩ (h i)

theorem exists_testBit_of_ne_zero {n : ℕ} (h : n ≠ 0) :
    ∃ i, n.testBit i = true := by
  by_contra hc
  push_neg at hc
  exact h (Nat.eq_of_testBit_eq fun i => by
    simp [Nat.zero_testBit, Bool.eq_false_iff.mpr (hc i)])

/-- `(n-1) & n` is zero exactly when `n` is zero or a power of two. -/
theorem land_pred_self_eq_zero_iff (n : ℕ) (hn : 0 < n) :
    (n - 1) &&& n = 0 ↔ ∃ k, n = 2 ^ k := by
  induction n using Nat.strong_induction_on with
  | _ n ih =>
    rcases Nat.even_or_odd n with he | ho
    · -- n even, n = 2 * m with m = n / 2 > 0
      have hm2 : n % 2 = 0 := Nat.even_iff.mp he
      set m := n / 2 with hm
      have hn2 : n = 2 * m := by omega
      have hmpos : 0 < m := by omega
      have hmlt : m < n := by omega
      have hdiv : (n - 1) / 2 = m - 1 := by omega
      have step : ((n - 1) &&& n = 0) ↔ ((m - 1) &&& m = 0) := by
        rw [nat_land_eq_zero_iff, nat_land_eq_zero_iff]
        constructor
        · intro h i
          have := h (i + 1)
          rwa [Nat.testBit_succ, Nat.testBit_succ, hdiv, hm] at this
        · intro h i
          cases i with
          | zero =>
            rintro ⟨-, h2⟩
            rw [Nat.testBit_zero] at h2
            simp at h2
            omega
          | succ i =>
            rw [Nat.testBit_succ, Nat.testBit_succ, hdiv, hm]
            exact h i
      rw [step, ih m hmlt hmpos]
      constructor
      · rintro ⟨k, hk⟩
        exact ⟨k + 1, by rw [hn2, hk, pow_succ, Nat.mul_comm]⟩
      · rintro ⟨k, hk⟩
        cases k with
        | zero => omega
        | succ k =>
          refine ⟨k, ?_⟩
          have : 2 * m = 2 * 2 ^ k := by rw [← hn2, hk, pow_succ, Nat.mul_comm]
          omega
    · -- n odd
      rcases Nat.lt_or_ge n 2 with h1 | h2
      · -- n = 1
        have : n = 1 := by omega
        subst this
        simp
        exact ⟨0, rfl⟩
      · -- n = 2 * m + 1 with m > 0: a common bit always exists
        have hm2 : n % 2 = 1 := Nat.odd_iff.mp ho
        set m := n / 2 with hm
        have hn2 : n = 2 * m + 1 := by omega
        have hmpos : 0 < m := by omega
        have hdiv : (n - 1) / 2 = m := by omega
        constructor
        · intro h
          exfalso
          obtain ⟨i, hi⟩ := exists_testBit_of_ne_zero (show m ≠ 0 by omega)
          have := (nat_land_eq_zero_iff _ _).mp h (i + 1)
          rw [Nat.testBit_succ, Nat.testBit_succ, hdiv, hm] at this
          exact this ⟨hi, hi⟩
        · rintro ⟨k, hk⟩
          exfalso
          cases k with
          | zero => omega
          | succ k =>
            have : n % 2 = 0 := by
              rw [hk, pow_succ, Nat.mul_comm]
              simp [Nat.mul_mod_right]
            omega

/-- A positive number that is neither zero nor a power of two has two
distinct bits set, and conversely. -/
theorem two_bits_iff (n : ℕ) :
    (¬(n = 0 ∨ ∃ k, n = 2 ^ k)) ↔
      ∃ i j, i < j ∧ n.testBit i = true ∧ n.testBit j = true := by
  constructor
  · intro h
    push_neg at h
    obtain ⟨hne, hpow⟩ := h
    obtain ⟨i, hi⟩ := exists_testBit_of_ne_zero hne
    by_contra hc
    push_neg at hc
    apply hpow i
    apply Nat.eq_of_testBit_eq
    intro j
    rcases Nat.lt_trichotomy i j with hij | hij | hij
    · rw [Nat.testBit_two_pow]
      have : n.testBit j = false := by
        by_contra hj
        exact absurd (eq_true_of_ne_false hj) (by
          have := hc i j hij hi
          simp [this])
      simp [this, Nat.ne_of_lt hij]
    · subst hij
      simp [hi, Nat.testBit_two_pow]
    · rw [Nat.testBit_two_pow]
      have : n.testBit j = false := by
        by_contra hj
        have hj' := eq_true_of_ne_false hj
        have := hc j i hij hj'
        simp [hi] at this
      simp [this, Ne.symm (Nat.ne_of_lt hij)]
  · rintro ⟨i, j, hij, hi, hj⟩ (rfl | ⟨k, rfl⟩)
    · simp [Nat.zero_testBit] at hi
    · rw [Nat.testBit_two_pow] at hi hj
      simp at hi hj
      omega

theorem int_land_ofNat (a b : ℕ) : Int.land (↑a) (↑b) = ↑(a &&& b) := rfl

theorem is_non_singleton_split_zero : is_non_singleton_split 0 = 0 := by
  show Int.land (Int.negSucc 0) (Int.ofNat 0) = 0
  simp [is_non_singleton_split, Int.land, Nat.ldiff, Nat.bitwise_zero_left]

theorem is_non_singleton_split_coe (n : ℕ) (h : 0 < n) :
    is_non_singleton_split (n : ℤ) = ((n - 1) &&& n : ℕ) := by
  unfold is_non_singleton_split
  have h1 : ((n : ℤ) - 1) = ((n - 1 : ℕ) : ℤ) := by push_cast [h]; ring
  rw [h1, int_land_ofNat]

/-- The key fact behind both halves of C7, at the `ℕ` level combined with
the `ℤ`-level evaluation of the source function. -/
theorem is_non_singleton_split_eq_zero_iff (n : ℕ) :
    is_non_singleton_split (n : ℤ) = 0 ↔ (n = 0 ∨ ∃ k, n = 2 ^ k) := by
  rcases Nat.eq_zero_or_pos n with rfl | hpos
  · simpa using is_non_singleton_split_zero
  · rw [is_non_singleton_split_coe n hpos]
    have : (((n - 1) &&& n : ℕ) : ℤ) = 0 ↔ ((n - 1) &&& n : ℕ) = 0 := by
      constructor <;> intro h <;> exact_mod_cast h
    rw [this, land_pred_self_eq_zero_iff n hpos]
    constructor
    · exact Or.inr
    · rintro (rfl | hk)
      · omega
      · exact hk

/-- C7: `is_non_singleton_split(mask)` is falsy (zero) iff the mask is `0`
or has exactly one bit set (a power of two), and truthy (non-zero) iff the
mask has two or more bits set. -/
theorem claim_C7_is_non_singleton_split (m : ℤ) (h : 0 ≤ m) :
    (is_non_singleton_split m = 0 ↔ (m = 0 ∨ ∃ k : ℕ, m = 2 ^ k)) ∧
    (is_non_singleton_split m ≠ 0 ↔
      ∃ i j : ℕ, i < j ∧ m.toNat.testBit i = true ∧ m.toNat.testBit j = true) := by
  obtain ⟨n, rfl⟩ : ∃ n : ℕ, m = (n : ℤ) := ⟨m.toNat, (Int.toNat_of_nonneg h).symm⟩
  have hcast : ((n : ℤ) = 0 ∨ ∃ k : ℕ, (n : ℤ) = 2 ^ k) ↔ (n = 0 ∨ ∃ k, n = 2 ^ k) := by
    constructor
    · rintro (h0 | ⟨k, hk⟩)
      · exact Or.inl (by exact_mod_cast h0)
      · exact Or.inr ⟨k, by exact_mod_cast hk⟩
    · rintro (rfl | ⟨k, hk⟩)
      · exact Or.inl rfl
      · exact Or.inr ⟨k, by exact_mod_cast hk⟩
  constructor
  · rw [is_non_singleton_split_eq_zero_iff n, hcast]
  · rw [Int.toNat_natCast, ← two_bits_iff n]
    constructor
    · intro hne hor
      exact hne ((is_non_singleton_split_eq_zero_iff n).mpr hor)
    · intro hor hz
      exact hor ((is_non_singleton_split_eq_zero_iff n).mp hz)

/-- C7 witness: the theorem applied at the concrete mask 6 (two bits set). -/
theorem claim_C7_witness :
    (0 : ℤ) ≤ 6 ∧
      (is_non_singleton_split 6 = 0 ↔ ((6 : ℤ) = 0 ∨ ∃ k : ℕ, (6 : ℤ) = 2 ^ k)) :=
  ⟨by decide, (claim_C7_is_non_singleton_split 6 (by decide)).1⟩

/-! ### C6: `splits_considered` -/

/-- The predicate `splits_considered` classifies keys with: the mask is
non-trivial when `is_non_singleton_split` is truthy. -/
def nontrivialKey (p : Nat × Nat) : Bool :=
  decide (is_non_singleton_split (p.1 : ℤ) ≠ 0)

theorem considered_foldl (l : List (Nat × Nat)) (a b c d : Nat) :
    l.foldl SplitDistribution.considered_step (a, b, c, d) =
      (a + (l.map Prod.snd).sum,
       b + l.length,
       c + ((l.filter nontrivialKey).map Prod.snd).sum,
       d + (l.filter nontrivialKey).length) := by
  induction l generalizing a b c d with
  | nil => simp
  | cons p rest ih =>
    by_cases hp : is_non_singleton_split (p.1 : ℤ) ≠ 0
    · have hf : nontrivialKey p = true := by simp [nontrivialKey, hp]
      simp only [List.foldl_cons, SplitDistribution.considered_step, if_pos hp, ih,
        List.filter_cons, hf, if_true, List.map_cons, List.sum_cons, List.length_cons,
        Prod.mk.injEq]
      omega
    · have hf : nontrivialKey p = false := by simp [nontrivialKey, hp]
      simp only [List.foldl_cons, SplitDistribution.considered_step, if_neg hp, ih,
        List.filter_cons, hf, Bool.false_eq_true, if_false, List.map_cons,
        List.sum_cons, List.length_cons, Prod.mk.injEq]
      exact ⟨by omega, by omega, trivial⟩

/-- C6: `splits_considered()` returns, in one scan of `split_counts`,
the total number of split observations (the sum of all counts), the number
of distinct masks (the number of keys), and the same two quantities
restricted to the masks classified non-trivial by
`is_non_singleton_split`. -/
theorem claim_C6_splits_considered (sd : SplitDistribution) :
    sd.splits_considered =
      ((sd.split_counts.map Prod.snd).sum,
       sd.split_counts.length,
       ((sd.split_counts.filter nontrivialKey).map Prod.snd).sum,
       (sd.split_counts.filter nontrivialKey).length) := by
  unfold SplitDistribution.splits_considered
  simpa using considered_foldl sd.split_counts 0 0 0 0

/-! ### C5: `split_taxa_list` -/

/-- The indices of the set bits of `m`, low to high, offset by `i` — the
mathematical description of the positions `split_taxa_list` visits. -/
def bitIndicesFrom (m i : Nat) : List Nat :=
  if h : 0 < m then
    (if m % 2 = 1 then [i] else []) ++ bitIndicesFrom (m / 2) (i + 1)
  else []
decreasing_by
  exact Nat.div_lt_self h one_lt_two

theorem mem_bitIndicesFrom (m : Nat) :
    ∀ i j, (j ∈ bitIndicesFrom m i ↔ (i ≤ j ∧ m.testBit (j - i) = true)) := by
  induction m using Nat.strong_induction_on with
  | _ m ih =>
    intro i j
    rcases Nat.eq_zero_or_pos m with rfl | hpos
    · simp [bitIndicesFrom, Nat.zero_testBit]
    · rw [bitIndicesFrom, dif_pos hpos]
      have hlt : m / 2 < m := Nat.div_lt_self hpos one_lt_two
      rw [List.mem_append, ih (m / 2) hlt (i + 1) j]
      constructor
      · rintro (hj | ⟨hij, hbit⟩)
        · have hj' : j = i := by
            by_cases hm : m % 2 = 1 <;> simp [hm] at hj
            · exact hj
          subst hj'
          have hm : m % 2 = 1 := by
            by_cases hm : m % 2 = 1
            · exact hm
            · simp [hm] at hj
          exact ⟨Nat.le_refl j, by simp [Nat.sub_self, Nat.testBit_zero, hm]⟩
        · refine ⟨by omega, ?_⟩
          have : j - i = (j - (i + 1)) + 1 := by omega
          rw [this, Nat.testBit_succ]
          exact hbit
      · rintro ⟨hij, hbit⟩
        rcases Nat.eq_or_lt_of_le hij with rfl | hij'
        · left
          rw [Nat.sub_self, Nat.testBit_zero] at hbit
          simp at hbit
          simp [hbit]
        · right
          refine ⟨by omega, ?_⟩
          have : j - i = (j - (i + 1)) + 1 := by omega
          rw [this, Nat.testBit_succ] at hbit
          exact hbit

theorem le_of_mem_bitIndicesFrom {m i j : Nat} (h : j ∈ bitIndicesFrom m i) :
    i ≤ j :=
  ((mem_bitIndicesFrom m i j).mp h).1

theorem pairwise_bitIndicesFrom (m : Nat) :
    ∀ i, List.Pairwise (· < ·) (bitIndicesFrom m i) := by
  induction m using Nat.strong_induction_on with
  | _ m ih =>
    intro i
    rcases Nat.eq_zero_or_pos m with rfl | hpos
    · simp [bitIndicesFrom]
    · rw [bitIndicesFrom, dif_pos hpos]
      have hlt : m / 2 < m := Nat.div_lt_self hpos one_lt_two
      have hrest := ih (m / 2) hlt (i + 1)
      by_cases hm : m % 2 = 1
      · rw [if_pos hm, List.singleton_append, List.pairwise_cons]
        refine ⟨fun j hj => ?_, hrest⟩
        have := le_of_mem_bitIndicesFrom hj
        omega
      · rw [if_neg hm, List.nil_append]
        exact hrest

/-- `split_taxa_list` succeeds exactly on the set-bit indices, in
increasing order, when the taxon block covers all set bits. -/
theorem split_taxa_list_eq {α : Type} (taxa_block : List α) (d : α) (m : Nat) :
    ∀ i, (∀ j, m.testBit j = true → j + i < taxa_block.length) →
      split_taxa_list taxa_block m i =
        some ((bitIndicesFrom m i).map fun j => taxa_block.getD j d) := by
  induction m using Nat.strong_induction_on with
  | _ m ih =>
    intro i hcov
    rcases Nat.eq_zero_or_pos m with rfl | hpos
    · rw [split_taxa_list, dif_neg (by omega), bitIndicesFrom, dif_neg (by omega)]
      simp
    · have hlt : m / 2 < m := Nat.div_lt_self hpos one_lt_two
      have hcov' : ∀ j, (m / 2).testBit j = true → j + (i + 1) < taxa_block.length := by
        intro j hj
        have : m.testBit (j + 1) = true := by rw [Nat.testBit_succ]; exact hj
        have := hcov (j + 1) this
        omega
      have hrec := ih (m / 2) hlt (i + 1) hcov'
      rw [split_taxa_list, dif_pos hpos, bitIndicesFrom, dif_pos hpos]
      rw [Nat.and_one_is_mod, Nat.shiftRight_one]
      by_cases hm : m % 2 = 1
      · have hbit0 : m.testBit 0 = true := by simp [Nat.testBit_zero, hm]
        have hilen : i < taxa_block.length := by
          have := hcov 0 hbit0
          omega
        have hget : taxa_block[i]? = some (taxa_block.getD i d) := by
          rw [List.getD_eq_getElem?_getD, List.getElem?_eq_getElem hilen]
          rfl
        rw [if_pos hm, hget, hrec]
        simp [hm]
      · rw [if_neg hm, hrec]
        simp [hm]

theorem testBit_foldl_or_pow (l : List Nat) :
    ∀ (acc x : Nat),
      (l.foldl (fun a j => a ||| 2 ^ j) acc).testBit x
        = (acc.testBit x || decide (x ∈ l)) := by
  induction l with
  | nil => intro acc x; simp
  | cons j rest ih =>
    intro acc x
    rw [List.foldl_cons, ih, Nat.testBit_lor, Nat.testBit_two_pow]
    by_cases hx : x = j
    · subst hx
      simp [List.mem_cons]
    · have hx' : ¬j = x := fun hh => hx hh.symm
      simp [List.mem_cons, hx, hx']

/-- C5: for a mask whose set bits are all covered by the taxon block,
`split_taxa_list` returns (without raising) exactly the taxa sitting at
the set-bit indices of the mask, in increasing bit-index order, and OR-ing
the returned taxa's single-bit masks back together reproduces the mask. -/
theorem claim_C5_split_taxa_list {α : Type} [DecidableEq α]
    (taxa_block : List α) (d : α) (m : Nat)
    (hcov : ∀ j, m.testBit j = true → j < taxa_block.length)
    (hnodup : taxa_block.Nodup) :
    split_taxa_list taxa_block m 0 =
        some ((bitIndicesFrom m 0).map fun j => taxa_block.getD j d) ∧
    (∀ j, j ∈ bitIndicesFrom m 0 ↔ m.testBit j = true) ∧
    List.Pairwise (· < ·) (bitIndicesFrom m 0) ∧
    ((bitIndicesFrom m 0).map fun j =>
        taxon_bitmask taxa_block (taxa_block.getD j d)).foldl
      (fun a b => a ||| b) 0 = m := by
  have hmem : ∀ j, j ∈ bitIndicesFrom m 0 ↔ m.testBit j = true := by
    intro j
    rw [mem_bitIndicesFrom]
    constructor
    · rintro ⟨-, hb⟩; simpa using hb
    · intro hb; exact ⟨Nat.zero_le j, by simpa using hb⟩
  refine ⟨?_, hmem, pairwise_bitIndicesFrom m 0, ?_⟩
  · exact split_taxa_list_eq taxa_block d m 0 (fun j hj => by
      have := hcov j hj; omega)
  · have hidx : ∀ j ∈ bitIndicesFrom m 0,
        taxon_bitmask taxa_block (taxa_block.getD j d) = 2 ^ j := by
      intro j hj
      have hjlt : j < taxa_block.length := hcov j ((hmem j).mp hj)
      have hget : taxa_block.getD j d = taxa_block[j] := by
        rw [List.getD_eq_getElem?_getD, List.getElem?_eq_getElem hjlt]
        rfl
      unfold taxon_bitmask
      rw [hget]
      congr 1
      exact List.indexOf_getElem hnodup j hjlt
    rw [List.map_congr_left hidx, List.foldl_map]
    apply Nat.eq_of_testBit_eq
    intro x
    rw [testBit_foldl_or_pow, Nat.zero_testBit, Bool.false_or]
    by_cases hx : m.testBit x = true
    · simp [hx, (hmem x).mpr hx]
    · have : x ∉ bitIndicesFrom m 0 := fun hc => hx ((hmem x).mp hc)
      simp [this]
      exact (Bool.not_eq_true _).mp hx

/-- C5 witness: the theorem applied to the registry `[10, 11, 12]` and the
mask 5 (bits 0 and 2 set): the taxa at indices 0 and 2 come back. -/
theorem claim_C5_witness :
    ([10, 11, 12] : List Nat).Nodup ∧
    split_taxa_list ([10, 11, 12] : List Nat) 5 0 = some [10, 12] := by
  have hcov : ∀ j, Nat.testBit 5 j = true → j < ([10, 11, 12] : List Nat).length := by
    intro j hj
    by_contra hc
    push_neg at hc
    simp only [List.length_cons, List.length_nil] at hc
    rw [Nat.testBit_lt_two_pow
      (lt_of_lt_of_le (by norm_num)
        (Nat.pow_le_pow_right (by norm_num) hc))] at hj
    exact Bool.false_ne_true hj
  have h := (claim_C5_split_taxa_list ([10, 11, 12] : List Nat) 0 5 hcov (by decide)).1
  refine ⟨by decide, ?_⟩
  rw [h]
  simp [bitIndicesFrom]

/-! ### C8: `split_as_string` and `split_as_string_rev` -/

theorem number_to_bitstring_reverse_getD (m : Nat) :
    ∀ i, (number_to_bitstring m).reverse.getD i '0'
      = if m.testBit i = true then '1' else '0' := by
  induction m using Nat.strong_induction_on with
  | _ m ih =>
    intro i
    rcases Nat.eq_zero_or_pos m with rfl | hpos
    · rw [number_to_bitstring, dif_neg (by omega)]
      simp [Nat.zero_testBit]
    · have hlt : m >>> 1 < m := by
        rw [Nat.shiftRight_one]
        exact Nat.div_lt_self hpos one_lt_two
      rw [number_to_bitstring, dif_pos hpos, List.reverse_append]
      cases i with
      | zero =>
        rw [Nat.and_one_is_mod, Nat.testBit_zero]
        by_cases hm : m % 2 = 1 <;> simp [hm]
      | succ i =>
        have := ih (m >>> 1) hlt i
        rw [Nat.shiftRight_one] at this
        simp only [List.reverse_singleton, List.singleton_append,
          List.getD_cons_succ]
        rw [Nat.shiftRight_one, this, Nat.testBit_succ]

theorem number_to_bitstring_lt (m : Nat) :
    m < 2 ^ (number_to_bitstring m).length := by
  induction m using Nat.strong_induction_on with
  | _ m ih =>
    rcases Nat.eq_zero_or_pos m with rfl | hpos
    · rw [number_to_bitstring, dif_neg (by omega)]
      simp
    · have hlt : m >>> 1 < m := by
        rw [Nat.shiftRight_one]
        exact Nat.div_lt_self hpos one_lt_two
      have hsr : m >>> 1 = m / 2 := Nat.shiftRight_one m
      have := ih (m >>> 1) hlt
      rw [number_to_bitstring, dif_pos hpos]
      rw [List.length_append, List.length_singleton, pow_succ]
      rw [hsr] at this ⊢
      omega

theorem number_to_bitstring_length_le (m w : Nat) (h : m < 2 ^ w) :
    (number_to_bitstring m).length ≤ w := by
  induction m using Nat.strong_induction_on generalizing w with
  | _ m ih =>
    rcases Nat.eq_zero_or_pos m with rfl | hpos
    · rw [number_to_bitstring, dif_neg (by omega)]
      simp
    · have hlt : m >>> 1 < m := by
        rw [Nat.shiftRight_one]
        exact Nat.div_lt_self hpos one_lt_two
      have hw : 0 < w := by
        by_contra hc
        push_neg at hc
        interval_cases w
        simp at h
        omega
      have hm2 : m >>> 1 < 2 ^ (w - 1) := by
        rw [Nat.shiftRight_one]
        have : 2 ^ w = 2 * 2 ^ (w - 1) := by
          conv_lhs => rw [show w = (w - 1) + 1 by omega]
          rw [pow_succ, Nat.mul_comm]
        omega
      have := ih (m >>> 1) hlt (w - 1) hm2
      rw [number_to_bitstring, dif_pos hpos]
      rw [List.length_append, List.length_singleton]
      omega

theorem getD_replicate_self (n i : Nat) (c : Char) :
    (List.replicate n c).getD i c = c := by
  rcases Nat.lt_or_ge i n with h | h
  · rw [List.getD_eq_getElem?_getD, List.getElem?_eq_getElem (by simpa using h)]
    simp [List.getElem_replicate]
  · rw [List.getD_eq_getElem?_getD, List.getElem?_eq_none (by simpa using h)]
    rfl

/-- Right-justifying with the fill `'0'` does not change the
low-to-high character at any index when read with default `'0'`. -/
theorem rjust_reverse_getD (s : List Char) (w i : Nat) :
    (rjust s w '0').reverse.getD i '0' = s.reverse.getD i '0' := by
  unfold rjust
  rw [List.reverse_append, List.reverse_replicate]
  rcases Nat.lt_or_ge i s.reverse.length with h | h
  · rw [List.getD_append _ _ _ _ h]
  · rw [List.getD_append_right _ _ _ _ h]
    rw [List.getD_eq_getElem?_getD s.reverse, List.getElem?_eq_none (by simpa using h)]
    rw [getD_replicate_self]
    rfl

theorem rjust_length (s : List Char) (w : Nat) (c : Char) (h : s.length ≤ w) :
    (rjust s w c).length = w := by
  unfold rjust
  rw [List.length_append, List.length_replicate]
  omega

/-- C8 (amended): provided `symbol1 ≠ '1'`, `split_as_string` renders a
mask `m < 2^width` as exactly `width` characters, the `i`-th character
from the right being `symbol2` for a set bit and `symbol1` for a clear
bit, and `split_as_string_rev` is its character-reverse.  (The proviso is
forced by the two successive `replace` calls: a `symbol1` equal to `'1'`
is rewritten again by the second `replace`.) -/
theorem claim_C8_split_as_string {α : Type} (taxa_block : List α)
    (m : Nat) (s1 s2 : Char)
    (hm : m < 2 ^ taxa_block.length) (hs : s1 ≠ '1') :
    (split_as_string m taxa_block s1 s2).length = taxa_block.length ∧
    (∀ i, i < taxa_block.length →
      (split_as_string m taxa_block s1 s2).reverse.getD i ' ' =
        if m.testBit i = true then s2 else s1) ∧
    split_as_string_rev m taxa_block s1 s2 =
      (split_as_string m taxa_block s1 s2).reverse := by
  have hlen : (rjust (number_to_bitstring m) taxa_block.length '0').length
      = taxa_block.length :=
    rjust_length _ _ _ (number_to_bitstring_length_le m _ hm)
  have hreslen : (split_as_string m taxa_block s1 s2).length = taxa_block.length := by
    unfold split_as_string strReplaceChar
    simpa using hlen
  refine ⟨hreslen, ?_, rfl⟩
  intro i hi
  have hpad : (rjust (number_to_bitstring m) taxa_block.length '0').reverse.getD i '0'
      = if m.testBit i = true then '1' else '0' := by
    rw [rjust_reverse_getD, number_to_bitstring_reverse_getD]
  set pad := rjust (number_to_bitstring m) taxa_block.length '0' with hpd
  have hip : i < pad.reverse.length := by
    rw [List.length_reverse, hlen]
    exact hi
  have hpadel : pad.reverse[i] = (if m.testBit i = true then '1' else '0') := by
    rw [← hpad, List.getD_eq_getElem?_getD, List.getElem?_eq_getElem hip]
    rfl
  have hres : (split_as_string m taxa_block s1 s2).reverse =
      ((pad.reverse.map fun c => if c = '0' then s1 else c).map
        fun c => if c = '1' then s2 else c) := by
    unfold split_as_string strReplaceChar
    rw [← List.map_reverse, ← List.map_reverse]
  rw [hres]
  have hi2 : i < ((pad.reverse.map fun c => if c = '0' then s1 else c).map
      fun c => if c = '1' then s2 else c).length := by
    simpa using hip
  rw [List.getD_eq_getElem?_getD, List.getElem?_eq_getElem hi2]
  simp only [List.getElem_map, Option.getD_some]
  by_cases hb : m.testBit i = true
  · have hval : pad.reverse[i] = '1' := by rw [hpadel, if_pos hb]
    rw [hval, if_neg (show ¬('1' : Char) = '0' by decide), if_pos rfl, if_pos hb]
  · have hval : pad.reverse[i] = '0' := by rw [hpadel, if_neg hb]
    rw [hval, if_pos rfl, if_neg hs, if_neg hb]

/-- C8 counterexample: at mask 0, width 1, `symbol1 = '1'`, `symbol2 = '*'`
the claim requires the single (bit-clear) character to be `symbol1 = '1'`,
but the second `replace` of the source rewrites it to `'*'`. -/
theorem claim_C8_counterexample :
    (0 : Nat) < 2 ^ ([0] : List Nat).length ∧
    ¬((split_as_string 0 ([0] : List Nat) '1' '*').reverse.getD 0 ' ' =
        if (0 : Nat).testBit 0 = true then '*' else '1') := by
  constructor
  · decide
  · intro h
    rw [show (split_as_string 0 ([0] : List Nat) '1' '*') = ['*'] from by
      unfold split_as_string strReplaceChar rjust
      rw [number_to_bitstring, dif_neg (by omega)]
      rfl] at h
    simp at h

/-- C8 witness: the amended theorem applied at mask 5 over three taxa with
the default symbols `'.'` and `'*'`. -/
theorem claim_C8_witness :
    ((5 : Nat) < 2 ^ ([0, 1, 2] : List Nat).length ∧ ('.' : Char) ≠ '1') ∧
    (∀ i, i < ([0, 1, 2] : List Nat).length →
      (split_as_string 5 ([0, 1, 2] : List Nat) '.' '*').reverse.getD i ' ' =
        if (5 : Nat).testBit i = true then '*' else '.') :=
  ⟨⟨by decide, by decide⟩,
   (claim_C8_split_as_string ([0, 1, 2] : List Nat) 5 '.' '*'
      (by decide) (by decide)).2.1⟩

/-! ### C3 and C4: the split encoder -/

theorem dictGet?_foldl_insert {γ β : Type} (key : γ → Nat) (val : γ → β)
    (l : List γ) :
    ∀ (d : Dict β) (k : Nat),
      dictGet? (l.foldl (fun m e => dictInsert m (key e) (val e)) d) k
        = ((l.reverse.find? fun e => key e == k).map val).or (dictGet? d k) := by
  induction l with
  | nil => intro d k; simp
  | cons e rest ih =>
    intro d k
    rw [List.foldl_cons, ih, List.reverse_cons, List.find?_append]
    have hC : dictGet? (dictInsert d (key e) (val e)) k
        = ((List.find? (fun x => key x == k) [e]).map val).or (dictGet? d k) := by
      by_cases hk : key e = k
      · subst hk
        rw [dictGet?_insert_self]
        simp
      · rw [dictGet?_insert_ne d (key e) k (val e) (fun hh => hk hh.symm)]
        have hbeq : (key e == k) = false := by simp [hk]
        simp [List.find?, hbeq]
    rw [hC]
    cases hA : rest.reverse.find? (fun x => key x == k) <;> simp [Option.or]

theorem mem_dictKeys_insert {β : Type} (d : Dict β) (k x : Nat) (v : β) :
    x ∈ dictKeys (dictInsert d k v) ↔ (x ∈ dictKeys d ∨ x = k) := by
  by_cases hc : dictContains d k = true
  · rw [dictKeys_insert_of_contains _ _ _ hc]
    constructor
    · exact Or.inl
    · rintro (hx | rfl)
      · exact hx
      · exact (dictContains_iff_mem_keys _ _).mp hc
  · rw [dictKeys_insert_of_not_contains _ _ _ ((Bool.not_eq_true _).mp hc)]
    simp [List.mem_append]

theorem mem_keys_foldl_insert {γ β : Type} (key : γ → Nat) (val : γ → β)
    (l : List γ) :
    ∀ (d : Dict β) (x : Nat),
      x ∈ dictKeys (l.foldl (fun m e => dictInsert m (key e) (val e)) d)
        ↔ (x ∈ dictKeys d ∨ ∃ e ∈ l, key e = x) := by
  induction l with
  | nil => intro d x; simp
  | cons e rest ih =>
    intro d x
    rw [List.foldl_cons, ih, mem_dictKeys_insert]
    constructor
    · rintro ((hx | rfl) | ⟨e', he', hk⟩)
      · exact Or.inl hx
      · exact Or.inr ⟨e, List.mem_cons_self e rest, rfl⟩
      · exact Or.inr ⟨e', List.mem_cons_of_mem e he', hk⟩
    · rintro (hx | ⟨e', he', hk⟩)
      · exact Or.inl (Or.inl hx)
      · rcases List.mem_cons.mp he' with rfl | he''
        · exact Or.inl (Or.inr hk.symm)
        · exact Or.inr ⟨e', he'', hk⟩

theorem childrenOrMask_eq_foldl (taxa_block : List Nat) (cs : List Node) :
    ∀ acc, childrenOrMask taxa_block acc cs
      = cs.foldl (fun a c => a ||| edgeSplitMask taxa_block c) acc := by
  induction cs with
  | nil => intro acc; rfl
  | cons c rest ih => intro acc; rw [List.foldl_cons, ← ih]; rfl

/-- C3: on the postorder edge traversal, each edge's recorded mask is the
OR of its children's masks for an internal edge, the taxon's bit for a
taxon-bearing leaf edge, and 0 for a taxon-less leaf edge; and the
returned split map sends each mask to the postorder-latest edge that
produced it (a later edge overwrites an earlier one with the same mask). -/
theorem claim_C3_encode_splits (taxa_block : List Nat) (tree : Node) :
    (∀ e, e ∈ postorderNodes tree →
      edgeSplitMask taxa_block e =
        if e.children.isEmpty then
          (match e.taxon with
           | some i => taxon_bitmask taxa_block i
           | none => 0)
        else e.children.foldl (fun a c => a ||| edgeSplitMask taxa_block c) 0) ∧
    (∀ m, dictGet? (encode_splits taxa_block tree).split_map m =
        (postorderNodes tree).reverse.find?
          (fun e => edgeSplitMask taxa_block e == m)) := by
  constructor
  · intro e _
    obtain ⟨t, l, a, cs⟩ := e
    cases cs with
    | nil => cases t <;> simp [edgeSplitMask, Node.children, Node.taxon]
    | cons c rest =>
      simp only [edgeSplitMask, Node.children, Node.taxon, List.isEmpty_cons,
        if_false, Bool.false_eq_true]
      exact childrenOrMask_eq_foldl taxa_block (c :: rest) 0
  · intro m
    show dictGet? ((postorderNodes tree).foldl
        (fun d e => dictInsert d (edgeSplitMask taxa_block e) e) []) m = _
    have h := dictGet?_foldl_insert (edgeSplitMask taxa_block) (fun e => e)
      (postorderNodes tree) [] m
    simpa [dictGet?, Option.map_id'] using h

/-- Example nodes for the encoder witnesses: a registry of one taxon and a
degenerate chain whose leaf and root edges carry the same mask. -/
def exLeaf0 : Node := .mk (some 0) none 0 []

def exChain : Node := .mk none none 0 [exLeaf0]

/-- C3 witness: the theorem applied to the one-taxon chain; the leaf edge
is in the traversal and its mask is its taxon's bit, and on the duplicate
mask 1 the split map holds the later-visited (root) edge, not the leaf. -/
theorem claim_C3_witness :
    (exLeaf0 ∈ postorderNodes exChain ∧
      edgeSplitMask [0] exLeaf0 =
        if exLeaf0.children.isEmpty then
          (match exLeaf0.taxon with
           | some i => taxon_bitmask [0] i
           | none => 0)
        else exLeaf0.children.foldl (fun a c => a ||| edgeSplitMask [0] c) 0) ∧
    dictGet? (encode_splits [0] exChain).split_map 1 = some exChain := by
  refine ⟨⟨?mem, ?_⟩, ?_⟩
  case mem => simp [exChain, exLeaf0, postorderNodes, postorderNodesList]
  · exact (claim_C3_encode_splits [0] exChain).1 exLeaf0
      (by simp [exChain, exLeaf0, postorderNodes, postorderNodesList])
  · rw [(claim_C3_encode_splits [0] exChain).2 1]
    rfl

/-- C4: every complement the encoder computes is `full_mask XOR m`,
complementing twice is the identity on every produced mask, and the
complemented-splits set is exactly the image of the split-map keys under
XOR with the full mask. -/
theorem claim_C4_complemented_splits (taxa_block : List Nat) (tree : Node) :
    (∀ m, m ∈ (encode_splits taxa_block tree).splits →
        all_taxa_bitmask taxa_block ^^^ (all_taxa_bitmask taxa_block ^^^ m) = m) ∧
    (∀ x, x ∈ (encode_splits taxa_block tree).complemented_splits ↔
        ∃ m, m ∈ (encode_splits taxa_block tree).splits ∧
          x = all_taxa_bitmask taxa_block ^^^ m) := by
  constructor
  · intro m _
    rw [← Nat.xor_assoc, Nat.xor_self, Nat.zero_xor]
  · intro x
    have h := mem_keys_foldl_insert
      (fun p : Nat × Node => p.1 ^^^ all_taxa_bitmask taxa_block)
      Prod.snd (encode_splits taxa_block tree).split_map [] x
    have h2 : x ∈ dictKeys ((encode_splits taxa_block tree).split_map.foldl
        (fun d p => dictInsert d (p.1 ^^^ all_taxa_bitmask taxa_block) p.2) []) ↔
        ∃ p ∈ (encode_splits taxa_block tree).split_map,
          p.1 ^^^ all_taxa_bitmask taxa_block = x := by
      simpa [dictKeys] using h
    rw [show (encode_splits taxa_block tree).complemented_splits
        = dictKeys ((encode_splits taxa_block tree).split_map.foldl
            (fun d p => dictInsert d (p.1 ^^^ all_taxa_bitmask taxa_block) p.2) [])
        from rfl]
    rw [h2]
    rw [show (encode_splits taxa_block tree).splits
        = dictKeys (encode_splits taxa_block tree).split_map from rfl]
    constructor
    · rintro ⟨p, hp, rfl⟩
      exact ⟨p.1, List.mem_map_of_mem Prod.fst hp, (Nat.xor_comm _ _).symm⟩
    · rintro ⟨m, hm, rfl⟩
      obtain ⟨p, hp, rfl⟩ := List.mem_map.mp hm
      exact ⟨p, hp, Nat.xor_comm _ _⟩

/-- C4 witness: the theorem applied to the one-taxon chain: mask 1 is
produced by the encoder and double complement gives it back. -/
theorem claim_C4_witness :
    ((1 : Nat) ∈ (encode_splits [0] exChain).splits) ∧
    (all_taxa_bitmask [0] ^^^ (all_taxa_bitmask [0] ^^^ 1) = 1) :=
  ⟨by decide, (claim_C4_complemented_splits [0] exChain).1 1 (by decide)⟩

/-! ### C1, C2, C9, C10: the aggregator

Shape lemmas: each statement group of the loop bodies touches only its own
fields of the state. -/

theorem counts_part_shape (sd : SplitDistribution) (split : Nat) :
    ∃ sp cd, SplitDistribution.count_split_step_counts sd split
      = { sd with splits := sp, split_counts := cd } := by
  unfold SplitDistribution.count_split_step_counts
  split
  · exact ⟨sd.splits, _, rfl⟩
  · exact ⟨_, _, rfl⟩

theorem lengths_part_shape (r : EncodeResult) (sd : SplitDistribution) (split : Nat) :
    ∃ d, SplitDistribution.count_split_step_lengths r sd split
      = { sd with split_edge_lengths := d } := by
  unfold SplitDistribution.count_split_step_lengths
  repeat' split
  all_goals exact ⟨_, rfl⟩

theorem ages_part_shape (r : EncodeResult) (sd : SplitDistribution) (split : Nat) :
    ∃ d, SplitDistribution.count_split_step_ages r sd split
      = { sd with split_node_ages := d } := by
  unfold SplitDistribution.count_split_step_ages
  repeat' split
  all_goals exact ⟨_, rfl⟩

theorem csplit_step_shape (sd : SplitDistribution) (split : Nat) :
    ∃ sp cd, SplitDistribution.count_csplit_step sd split
      = { sd with complemented_splits := sp, complemented_split_counts := cd } := by
  unfold SplitDistribution.count_csplit_step
  split
  · exact ⟨sd.complemented_splits, _, rfl⟩
  · exact ⟨_, _, rfl⟩

/-- A fold whose step preserves a projection preserves it globally. -/
theorem foldl_preserves {σ γ β : Type} (g : σ → β) (step : σ → γ → σ)
    (hstep : ∀ sd x, g (step sd x) = g sd) (l : List γ) :
    ∀ sd, g (l.foldl step sd) = g sd := by
  induction l with
  | nil => intro sd; rfl
  | cons x rest ih => intro sd; rw [List.foldl_cons, ih, hstep]

/-- A fold whose step preserves an invariant (for elements of the list)
preserves it globally. -/
theorem foldl_invariant {σ γ : Type} (P : σ → Prop) (step : σ → γ → σ)
    (l : List γ) (hstep : ∀ sd x, x ∈ l → P sd → P (step sd x)) :
    ∀ sd, P sd → P (l.foldl step sd) := by
  induction l with
  | nil => intro sd h; exact h
  | cons x rest ih =>
    intro sd h
    rw [List.foldl_cons]
    exact ih (fun sd' y hy => hstep sd' y (List.mem_cons_of_mem x hy))
      (step sd x) (hstep sd x (List.mem_cons_self x rest) h)

/-- Successful `count_splits_on_tree` calls are exactly the two loop folds
applied after the `total_trees_counted` increment. -/
theorem count_ok_eq (sd : SplitDistribution) (t : Node) (sd' : SplitDistribution)
    (h : sd.count_splits_on_tree t = .ok sd') :
    ∃ t', normalize_taxa t sd.taxa_block = some t' ∧
      sd' = (encode_splits sd.taxa_block (deroot t')).complemented_splits.foldl
          SplitDistribution.count_csplit_step
          ((encode_splits sd.taxa_block (deroot t')).splits.foldl
            (SplitDistribution.count_split_step (encode_splits sd.taxa_block (deroot t')))
            { sd with total_trees_counted := sd.total_trees_counted + 1 }) := by
  cases hn : normalize_taxa t sd.taxa_block with
  | none =>
    simp only [SplitDistribution.count_splits_on_tree, hn] at h
    exact absurd h (by simp)
  | some t' =>
    simp only [SplitDistribution.count_splits_on_tree, hn] at h
    injection h with h2
    exact ⟨t', rfl, h2.symm⟩

/-- C1 counterexample: counting a tree that references taxon 1 against a
registry holding only taxon 0 fails, but the failed call leaves
`total_trees_counted` at 1, not at its pre-call value 0. -/
def exBadLeaf : Node := .mk (some 1) none 0 []

theorem claim_C1_counterexample :
    (SplitDistribution.init [0]).count_splits_on_tree exBadLeaf =
      .error { SplitDistribution.init [0] with total_trees_counted := 1 } ∧
    ({ SplitDistribution.init [0] with total_trees_counted := 1 } : SplitDistribution)
      ≠ SplitDistribution.init [0] := by
  constructor
  · rfl
  · intro h
    have := congrArg SplitDistribution.total_trees_counted h
    simp [SplitDistribution.init] at this

/-- C1 (amended): a `count_splits_on_tree` call that fails during
normalization or encoding leaves every aggregator field — `split_counts`,
`complemented_split_counts`, `splits`, `complemented_splits`,
`split_edge_lengths`, `split_node_ages` — unchanged, except that
`total_trees_counted` has already been incremented by 1: the increment is
the first statement of the method, before any fallible step. -/
theorem claim_C1_failed_count (sd : SplitDistribution) (t : Node)
    (sd' : SplitDistribution)
    (h : sd.count_splits_on_tree t = .error sd') :
    sd' = { sd with total_trees_counted := sd.total_trees_counted + 1 } := by
  cases hn : normalize_taxa t sd.taxa_block with
  | none =>
    simp only [SplitDistribution.count_splits_on_tree, hn] at h
    injection h with h2
    exact h2.symm
  | some t' =>
    simp only [SplitDistribution.count_splits_on_tree, hn] at h
    exact absurd h (by simp)

/-- C1 witness: the amended theorem applied to the failing call of the
counterexample: the error state is exactly the pre-call state with
`total_trees_counted` bumped. -/
theorem claim_C1_witness :
    ((SplitDistribution.init [0]).count_splits_on_tree exBadLeaf =
      .error { SplitDistribution.init [0] with total_trees_counted := 1 }) ∧
    ({ SplitDistribution.init [0] with total_trees_counted := 1 } : SplitDistribution)
      = { SplitDistribution.init [0] with
            total_trees_counted :=
              (SplitDistribution.init [0]).total_trees_counted + 1 } :=
  ⟨rfl, claim_C1_failed_count (SplitDistribution.init [0]) exBadLeaf _ rfl⟩

/-! Field-preservation and exact characterizations of the loop bodies. -/

theorem count_split_step_preserved (r : EncodeResult) (sd : SplitDistribution)
    (s : Nat) :
    (SplitDistribution.count_split_step r sd s).total_trees_counted = sd.total_trees_counted ∧
    (SplitDistribution.count_split_step r sd s).taxa_block = sd.taxa_block ∧
    (SplitDistribution.count_split_step r sd s).complemented_splits = sd.complemented_splits ∧
    (SplitDistribution.count_split_step r sd s).complemented_split_counts = sd.complemented_split_counts ∧
    (SplitDistribution.count_split_step r sd s).ignore_edge_lengths = sd.ignore_edge_lengths ∧
    (SplitDistribution.count_split_step r sd s).ignore_node_ages = sd.ignore_node_ages ∧
    (SplitDistribution.count_split_step r sd s).split_freqs = sd.split_freqs ∧
    (SplitDistribution.count_split_step r sd s).complemented_split_freqs = sd.complemented_split_freqs ∧
    (SplitDistribution.count_split_step r sd s).trees_counted_for_freqs = sd.trees_counted_for_freqs := by
  unfold SplitDistribution.count_split_step
  obtain ⟨sp, cd, h1⟩ := counts_part_shape sd s
  rw [h1]
  obtain ⟨d, h2⟩ := lengths_part_shape r { sd with splits := sp, split_counts := cd } s
  rw [h2]
  obtain ⟨d2, h3⟩ := ages_part_shape r _ s
  rw [h3]
  exact ⟨rfl, rfl, rfl, rfl, rfl, rfl, rfl, rfl, rfl⟩

theorem count_csplit_step_preserved (sd : SplitDistribution) (s : Nat) :
    (SplitDistribution.count_csplit_step sd s).total_trees_counted = sd.total_trees_counted ∧
    (SplitDistribution.count_csplit_step sd s).taxa_block = sd.taxa_block ∧
    (SplitDistribution.count_csplit_step sd s).splits = sd.splits ∧
    (SplitDistribution.count_csplit_step sd s).split_counts = sd.split_counts ∧
    (SplitDistribution.count_csplit_step sd s).split_edge_lengths = sd.split_edge_lengths ∧
    (SplitDistribution.count_csplit_step sd s).split_node_ages = sd.split_node_ages ∧
    (SplitDistribution.count_csplit_step sd s).ignore_edge_lengths = sd.ignore_edge_lengths ∧
    (SplitDistribution.count_csplit_step sd s).ignore_node_ages = sd.ignore_node_ages ∧
    (SplitDistribution.count_csplit_step sd s).split_freqs = sd.split_freqs ∧
    (SplitDistribution.count_csplit_step sd s).complemented_split_freqs = sd.complemented_split_freqs ∧
    (SplitDistribution.count_csplit_step sd s).trees_counted_for_freqs = sd.trees_counted_for_freqs := by
  obtain ⟨sp, cd, h1⟩ := csplit_step_shape sd s
  rw [h1]
  exact ⟨rfl, rfl, rfl, rfl, rfl, rfl, rfl, rfl, rfl, rfl, rfl⟩

theorem counts_part_char_pos (sd : SplitDistribution) (s c : Nat)
    (hcv : dictGet? sd.split_counts s = some c) :
    SplitDistribution.count_split_step_counts sd s
      = { sd with split_counts := dictInsert sd.split_counts s (c + 1) } := by
  unfold SplitDistribution.count_split_step_counts
  rw [if_pos (by simp [dictContains, hcv]), hcv]
  rfl

theorem counts_part_char_neg (sd : SplitDistribution) (s : Nat)
    (hcv : dictGet? sd.split_counts s = none) :
    SplitDistribution.count_split_step_counts sd s
      = { sd with
            splits := sd.splits ++ [s]
            split_counts := dictInsert sd.split_counts s 1 } := by
  unfold SplitDistribution.count_split_step_counts
  rw [if_neg (by simp [dictContains, hcv])]

theorem lengths_part_char_pos (r : EncodeResult) (sd : SplitDistribution)
    (s : Nat) (edge : Node) (l : List ℚ)
    (hflag : sd.ignore_edge_lengths = false)
    (hedge : dictGet? r.split_map s = some edge)
    (hl : dictGet? sd.split_edge_lengths s = some l) :
    SplitDistribution.count_split_step_lengths r sd s
      = { sd with split_edge_lengths :=
            dictInsert sd.split_edge_lengths s (l ++ [(edge.length).getD 0]) } := by
  unfold SplitDistribution.count_split_step_lengths
  rw [if_neg (by rw [hflag]; exact Bool.false_ne_true)]
  dsimp only
  rw [if_pos (by simp [dictContains, hl]), hedge, hl]
  rfl

theorem lengths_part_char_neg (r : EncodeResult) (sd : SplitDistribution)
    (s : Nat) (edge : Node)
    (hflag : sd.ignore_edge_lengths = false)
    (hedge : dictGet? r.split_map s = some edge)
    (hl : dictGet? sd.split_edge_lengths s = none) :
    SplitDistribution.count_split_step_lengths r sd s
      = { sd with split_edge_lengths :=
            (dictInsert (dictInsert sd.split_edge_lengths s [])
              s [(edge.length).getD 0]) } := by
  unfold SplitDistribution.count_split_step_lengths
  rw [if_neg (by rw [hflag]; exact Bool.false_ne_true)]
  dsimp only
  rw [if_neg (by simp [dictContains, hl]), hedge]
  dsimp only
  rw [dictGet?_insert_self]
  rfl

theorem ages_part_fields (r : EncodeResult) (sd : SplitDistribution) (s : Nat) :
    (SplitDistribution.count_split_step_ages r sd s).splits = sd.splits ∧
    (SplitDistribution.count_split_step_ages r sd s).split_counts = sd.split_counts ∧
    (SplitDistribution.count_split_step_ages r sd s).split_edge_lengths = sd.split_edge_lengths := by
  obtain ⟨d, h⟩ := ages_part_shape r sd s
  rw [h]
  exact ⟨rfl, rfl, rfl⟩

theorem csplit_char_pos (sd : SplitDistribution) (s c : Nat)
    (hcv : dictGet? sd.complemented_split_counts s = some c) :
    SplitDistribution.count_csplit_step sd s
      = { sd with complemented_split_counts :=
            dictInsert sd.complemented_split_counts s (c + 1) } := by
  unfold SplitDistribution.count_csplit_step
  rw [if_pos (by simp [dictContains, hcv]), hcv]
  rfl

theorem csplit_char_neg (sd : SplitDistribution) (s : Nat)
    (hcv : dictGet? sd.complemented_split_counts s = none) :
    SplitDistribution.count_csplit_step sd s
      = { sd with
            complemented_splits := sd.complemented_splits ++ [s]
            complemented_split_counts := dictInsert sd.complemented_split_counts s 1 } := by
  unfold SplitDistribution.count_csplit_step
  rw [if_neg (by simp [dictContains, hcv])]

/-! Reachable-state invariants. -/

theorem reachable_basics (sd : SplitDistribution) (h : Reachable sd) :
    sd.split_freqs = none ∧ sd.complemented_split_freqs = none ∧
    sd.ignore_edge_lengths = false ∧ sd.ignore_node_ages = false := by
  induction h with
  | init tb => exact ⟨rfl, rfl, rfl, rfl⟩
  | @step sd0 sd' t hr hok ih =>
    obtain ⟨t', hn, rfl⟩ := count_ok_eq _ _ _ hok
    refine ⟨?_, ?_, ?_, ?_⟩
    · rw [foldl_preserves (fun x => x.split_freqs) SplitDistribution.count_csplit_step
        (fun a b => (count_csplit_step_preserved a b).2.2.2.2.2.2.2.2.1) _]
      rw [foldl_preserves (fun x => x.split_freqs) _
        (fun a b => (count_split_step_preserved _ a b).2.2.2.2.2.2.1) _]
      exact ih.1
    · rw [foldl_preserves (fun x => x.complemented_split_freqs) SplitDistribution.count_csplit_step
        (fun a b => (count_csplit_step_preserved a b).2.2.2.2.2.2.2.2.2.1) _]
      rw [foldl_preserves (fun x => x.complemented_split_freqs) _
        (fun a b => (count_split_step_preserved _ a b).2.2.2.2.2.2.2.1) _]
      exact ih.2.1
    · rw [foldl_preserves (fun x => x.ignore_edge_lengths) SplitDistribution.count_csplit_step
        (fun a b => (count_csplit_step_preserved a b).2.2.2.2.2.2.1) _]
      rw [foldl_preserves (fun x => x.ignore_edge_lengths) _
        (fun a b => (count_split_step_preserved _ a b).2.2.2.2.1) _]
      exact ih.2.2.1
    · rw [foldl_preserves (fun x => x.ignore_node_ages) SplitDistribution.count_csplit_step
        (fun a b => (count_csplit_step_preserved a b).2.2.2.2.2.2.2.1) _]
      rw [foldl_preserves (fun x => x.ignore_node_ages) _
        (fun a b => (count_split_step_preserved _ a b).2.2.2.2.2.1) _]
      exact ih.2.2.2

/-- The C10 invariant: each observed-splits list holds exactly the keys of
its count dict, in first-observed order, without duplicates. -/
def KeysInv (sd : SplitDistribution) : Prop :=
  sd.splits = dictKeys sd.split_counts ∧ sd.splits.Nodup ∧
  sd.complemented_splits = dictKeys sd.complemented_split_counts ∧
  sd.complemented_splits.Nodup

theorem count_split_step_splits_counts (r : EncodeResult)
    (sd : SplitDistribution) (s : Nat) :
    (SplitDistribution.count_split_step r sd s).splits
        = (SplitDistribution.count_split_step_counts sd s).splits ∧
    (SplitDistribution.count_split_step r sd s).split_counts
        = (SplitDistribution.count_split_step_counts sd s).split_counts := by
  unfold SplitDistribution.count_split_step
  obtain ⟨d1, e1⟩ := lengths_part_shape r (SplitDistribution.count_split_step_counts sd s) s
  rw [e1]
  obtain ⟨d2, e2⟩ := ages_part_shape r _ s
  rw [e2]
  exact ⟨rfl, rfl⟩

theorem count_split_step_keysInv (r : EncodeResult) (sd : SplitDistribution)
    (s : Nat) (h : KeysInv sd) :
    KeysInv (SplitDistribution.count_split_step r sd s) := by
  obtain ⟨h1, h2, h3, h4⟩ := h
  have hpres := count_split_step_preserved r sd s
  obtain ⟨hsp, hsc⟩ := count_split_step_splits_counts r sd s
  refine ⟨?_, ?_, ?_, ?_⟩
  · rw [hsp, hsc]
    cases hc : dictGet? sd.split_counts s with
    | some c =>
      rw [counts_part_char_pos sd s c hc]
      show sd.splits = dictKeys (dictInsert sd.split_counts s (c + 1))
      rw [dictKeys_insert_of_contains _ _ _ (by simp [dictContains, hc])]
      exact h1
    | none =>
      rw [counts_part_char_neg sd s hc]
      show sd.splits ++ [s] = dictKeys (dictInsert sd.split_counts s 1)
      rw [dictKeys_insert_of_not_contains _ _ _ (by simp [dictContains, hc]), h1]
  · rw [hsp]
    cases hc : dictGet? sd.split_counts s with
    | some c =>
      rw [counts_part_char_pos sd s c hc]
      exact h2
    | none =>
      rw [counts_part_char_neg sd s hc]
      show (sd.splits ++ [s]).Nodup
      have hnotmem : s ∉ sd.splits := by
        rw [h1]
        intro hm
        have := (dictGet?_isSome_iff_mem_keys sd.split_counts s).mpr hm
        rw [hc] at this
        simp at this
      exact List.nodup_middle.mpr (by simp [List.nodup_cons, hnotmem, h2])
  · rw [hpres.2.2.1, hpres.2.2.2.1]
    exact h3
  · rw [hpres.2.2.1]
    exact h4

theorem count_csplit_step_keysInv (sd : SplitDistribution) (s : Nat)
    (h : KeysInv sd) : KeysInv (SplitDistribution.count_csplit_step sd s) := by
  obtain ⟨h1, h2, h3, h4⟩ := h
  have hpres := count_csplit_step_preserved sd s
  refine ⟨?_, ?_, ?_, ?_⟩
  · rw [hpres.2.2.1, hpres.2.2.2.1]
    exact h1
  · rw [hpres.2.2.1]
    exact h2
  · cases hc : dictGet? sd.complemented_split_counts s with
    | some c =>
      rw [csplit_char_pos sd s c hc]
      show sd.complemented_splits = dictKeys (dictInsert sd.complemented_split_counts s (c + 1))
      rw [dictKeys_insert_of_contains _ _ _ (by simp [dictContains, hc])]
      exact h3
    | none =>
      rw [csplit_char_neg sd s hc]
      show sd.complemented_splits ++ [s]
        = dictKeys (dictInsert sd.complemented_split_counts s 1)
      rw [dictKeys_insert_of_not_contains _ _ _ (by simp [dictContains, hc]), h3]
  · cases hc : dictGet? sd.complemented_split_counts s with
    | some c =>
      rw [csplit_char_pos sd s c hc]
      exact h4
    | none =>
      rw [csplit_char_neg sd s hc]
      show (sd.complemented_splits ++ [s]).Nodup
      have hnotmem : s ∉ sd.complemented_splits := by
        rw [h3]
        intro hm
        have := (dictGet?_isSome_iff_mem_keys sd.complemented_split_counts s).mpr hm
        rw [hc] at this
        simp at this
      exact List.nodup_middle.mpr (by simp [List.nodup_cons, hnotmem, h4])

theorem reachable_keysInv (sd : SplitDistribution) (h : Reachable sd) :
    KeysInv sd := by
  induction h with
  | init tb => exact ⟨rfl, List.nodup_nil, rfl, List.nodup_nil⟩
  | @step sd0 sd' t hr hok ih =>
    obtain ⟨t', hn, rfl⟩ := count_ok_eq _ _ _ hok
    apply foldl_invariant KeysInv SplitDistribution.count_csplit_step _
      (fun a b _ hp => count_csplit_step_keysInv a b hp)
    apply foldl_invariant KeysInv _ _
      (fun a b _ hp => count_split_step_keysInv _ a b hp)
    exact ih

/-- C10: in every state reachable by successful `count_splits_on_tree`
calls, `self.splits` is exactly the key list of `self.split_counts` in
first-observed order with no duplicates, and likewise
`self.complemented_splits` for `self.complemented_split_counts`. -/
theorem claim_C10_splits_are_keys (sd : SplitDistribution) (h : Reachable sd) :
    sd.splits = dictKeys sd.split_counts ∧ sd.splits.Nodup ∧
    sd.complemented_splits = dictKeys sd.complemented_split_counts ∧
    sd.complemented_splits.Nodup :=
  reachable_keysInv sd h

/-- A concrete reachable state: the aggregator over the one-taxon registry
after successfully counting the chain tree. -/
def exState1 : SplitDistribution :=
  match (SplitDistribution.init [0]).count_splits_on_tree exChain with
  | .ok s => s
  | .error s => s

theorem exState1_ok :
    (SplitDistribution.init [0]).count_splits_on_tree exChain = .ok exState1 := rfl

theorem reachable_exState1 : Reachable exState1 :=
  Reachable.step (Reachable.init [0]) exState1_ok

/-- C10 witness: the theorem applied to the concrete reachable state. -/
theorem claim_C10_witness :
    Reachable exState1 ∧
    (exState1.splits = dictKeys exState1.split_counts ∧ exState1.splits.Nodup ∧
      exState1.complemented_splits = dictKeys exState1.complemented_split_counts ∧
      exState1.complemented_splits.Nodup) :=
  ⟨reachable_exState1, claim_C10_splits_are_keys exState1 reachable_exState1⟩

/-! C9: one edge-length entry per counted occurrence. -/

/-- The C9 invariant: per mask, the stored edge-length list is exactly as
long as the stored count (and each is present exactly when the other is). -/
def EdgeLenInv (sd : SplitDistribution) : Prop :=
  ∀ m, (dictGet? sd.split_edge_lengths m).map List.length = dictGet? sd.split_counts m

theorem count_split_step_edgelenInv (r : EncodeResult) (sd : SplitDistribution)
    (s : Nat) (hsome : (dictGet? r.split_map s).isSome = true)
    (hflag : sd.ignore_edge_lengths = false)
    (hinv : EdgeLenInv sd) :
    EdgeLenInv (SplitDistribution.count_split_step r sd s) := by
  obtain ⟨edge, hedge⟩ := Option.isSome_iff_exists.mp hsome
  intro m
  unfold SplitDistribution.count_split_step
  obtain ⟨-, hac, hal⟩ := ages_part_fields r (SplitDistribution.count_split_step_lengths r
    (SplitDistribution.count_split_step_counts sd s) s) s
  rw [hac, hal]
  cases hc : dictGet? sd.split_counts s with
  | some c =>
    have hmap := hinv s
    rw [hc] at hmap
    obtain ⟨l, hL, hLlen⟩ := Option.map_eq_some'.mp hmap
    rw [counts_part_char_pos sd s c hc]
    rw [lengths_part_char_pos r
      { sd with split_counts := dictInsert sd.split_counts s (c + 1) }
      s edge l hflag hedge hL]
    show (dictGet? (dictInsert sd.split_edge_lengths s
        (l ++ [(edge.length).getD 0])) m).map List.length
      = dictGet? (dictInsert sd.split_counts s (c + 1)) m
    by_cases hm : m = s
    · subst hm
      rw [dictGet?_insert_self, dictGet?_insert_self]
      simp [hLlen]
    · rw [dictGet?_insert_ne _ _ _ _ hm, dictGet?_insert_ne _ _ _ _ hm]
      exact hinv m
  | none =>
    have hmap := hinv s
    rw [hc] at hmap
    have hLnone : dictGet? sd.split_edge_lengths s = none := by
      cases hx : dictGet? sd.split_edge_lengths s with
      | none => rfl
      | some l => rw [hx] at hmap; simp at hmap
    rw [counts_part_char_neg sd s hc]
    rw [lengths_part_char_neg r
      { sd with
          splits := sd.splits ++ [s]
          split_counts := dictInsert sd.split_counts s 1 }
      s edge hflag hedge hLnone]
    show (dictGet? (dictInsert (dictInsert sd.split_edge_lengths s [])
        s [(edge.length).getD 0]) m).map List.length
      = dictGet? (dictInsert sd.split_counts s 1) m
    by_cases hm : m = s
    · subst hm
      rw [dictGet?_insert_self, dictGet?_insert_self]
      rfl
    · rw [dictGet?_insert_ne _ _ _ _ hm, dictGet?_insert_ne _ _ _ _ hm,
        dictGet?_insert_ne _ _ _ _ hm]
      exact hinv m

theorem count_csplit_step_edgelenInv (sd : SplitDistribution) (s : Nat)
    (hinv : EdgeLenInv sd) :
    EdgeLenInv (SplitDistribution.count_csplit_step sd s) := by
  intro m
  have hpres := count_csplit_step_preserved sd s
  rw [hpres.2.2.2.2.1, hpres.2.2.2.1]
  exact hinv m

theorem reachable_edgelenInv (sd : SplitDistribution) (h : Reachable sd) :
    EdgeLenInv sd := by
  induction h with
  | init tb => intro m; rfl
  | @step sd0 sd' t hr hok ih =>
    have hflag0 : sd0.ignore_edge_lengths = false := (reachable_basics sd0 hr).2.2.1
    obtain ⟨t', hn, rfl⟩ := count_ok_eq _ _ _ hok
    have base : (fun x : SplitDistribution =>
        x.ignore_edge_lengths = false ∧ EdgeLenInv x)
        { sd0 with total_trees_counted := sd0.total_trees_counted + 1 } :=
      ⟨hflag0, ih⟩
    have hmid := foldl_invariant
      (fun x : SplitDistribution => x.ignore_edge_lengths = false ∧ EdgeLenInv x)
      (SplitDistribution.count_split_step
        (encode_splits sd0.taxa_block (deroot t')))
      (encode_splits sd0.taxa_block (deroot t')).splits
      (fun a b hb hp =>
        ⟨by
          rw [(count_split_step_preserved
            (encode_splits sd0.taxa_block (deroot t')) a b).2.2.2.2.1]
          exact hp.1,
         count_split_step_edgelenInv _ a b
          ((dictGet?_isSome_iff_mem_keys
            (encode_splits sd0.taxa_block (deroot t')).split_map b).mpr hb)
          hp.1 hp.2⟩)
      _ base
    exact foldl_invariant EdgeLenInv SplitDistribution.count_csplit_step _
      (fun a b _ hp => count_csplit_step_edgelenInv a b hp) _ hmid.2

/-- C9: in every reachable state (where `ignore_edge_lengths` has remained
`False` since construction), every counted mask's edge-length list has
exactly `split_counts[m]` entries — one appended entry, `0.0` for a
length-less edge, per counted occurrence. -/
theorem claim_C9_edge_length_lists (sd : SplitDistribution) (h : Reachable sd)
    (m c : Nat) (hm : dictGet? sd.split_counts m = some c) :
    sd.ignore_edge_lengths = false ∧
    ∃ l, dictGet? sd.split_edge_lengths m = some l ∧ l.length = c := by
  have hflag := (reachable_basics sd h).2.2.1
  have hinv := reachable_edgelenInv sd h
  have hx := hinv m
  rw [hm] at hx
  obtain ⟨l, hL, hLlen⟩ := Option.map_eq_some'.mp hx
  exact ⟨hflag, l, hL, hLlen⟩

/-- C9 witness: in the concrete reachable state, mask 1 was counted once
and its edge-length list has exactly one entry. -/
theorem claim_C9_witness :
    (dictGet? exState1.split_counts 1 = some 1) ∧
    (exState1.ignore_edge_lengths = false ∧
      ∃ l, dictGet? exState1.split_edge_lengths 1 = some l ∧ l.length = 1) :=
  ⟨rfl, claim_C9_edge_length_lists exState1 reachable_exState1 1 1 rfl⟩

/-! C2: frequency consistency. -/

theorem get_split_frequencies_eq (sd : SplitDistribution)
    (hf : sd.split_freqs = none) :
    (SplitDistribution.get_split_frequencies sd).1
      = sd.split_counts.map (fun p => (p.1, (p.2 : ℚ) /
          ((if sd.total_trees_counted = 0 then 1 else sd.total_trees_counted : ℕ) : ℚ))) := by
  unfold SplitDistribution.get_split_frequencies
  rw [if_pos (Or.inl (by rw [hf]; rfl))]
  rfl

theorem get_complemented_split_frequencies_eq (sd : SplitDistribution)
    (hf : sd.complemented_split_freqs = none) :
    (SplitDistribution.get_complemented_split_frequencies sd).1
      = sd.complemented_split_counts.map (fun p => (p.1, (p.2 : ℚ) /
          ((if sd.total_trees_counted = 0 then 1 else sd.total_trees_counted : ℕ) : ℚ))) := by
  unfold SplitDistribution.get_complemented_split_frequencies
  rw [if_pos (Or.inl (by rw [hf]; rfl))]
  rfl

/-- C2: in every reachable state, reading the `split_frequencies` property
yields, for each recorded mask, its count divided by
`max(total_trees_counted, 1)` — so the divisor is never zero, even before
any tree has been counted — and the same holds for
`complemented_split_frequencies` over the complemented counts.  (The
source's guard `total = 1 if total_trees_counted == 0 else
total_trees_counted` is exactly `max(total_trees_counted, 1)`.) -/
theorem claim_C2_frequencies (sd : SplitDistribution) (h : Reachable sd)
    (m c : Nat) :
    (0 : ℚ) < ((max sd.total_trees_counted 1 : ℕ) : ℚ) ∧
    (dictGet? sd.split_counts m = some c → 0 < c →
      dictGet? (SplitDistribution.get_split_frequencies sd).1 m
        = some ((c : ℚ) / ((max sd.total_trees_counted 1 : ℕ) : ℚ))) ∧
    (dictGet? sd.complemented_split_counts m = some c → 0 < c →
      dictGet? (SplitDistribution.get_complemented_split_frequencies sd).1 m
        = some ((c : ℚ) / ((max sd.total_trees_counted 1 : ℕ) : ℚ))) := by
  have hb := reachable_basics sd h
  have hmax : (if sd.total_trees_counted = 0 then 1 else sd.total_trees_counted)
      = max sd.total_trees_counted 1 := by
    by_cases h0 : sd.total_trees_counted = 0 <;> simp [h0] <;> omega
  refine ⟨?_, ?_, ?_⟩
  · have h1 : 0 < max sd.total_trees_counted 1 :=
      Nat.lt_of_lt_of_le Nat.zero_lt_one (Nat.le_max_right _ _)
    exact_mod_cast h1
  · intro hm hc
    rw [get_split_frequencies_eq sd hb.1,
      dictGet?_mapValues (fun v : Nat => (v : ℚ) /
        ((if sd.total_trees_counted = 0 then 1 else sd.total_trees_counted : ℕ) : ℚ))
        sd.split_counts m,
      hm, hmax]
    rfl
  · intro hm hc
    rw [get_complemented_split_frequencies_eq sd hb.2.1,
      dictGet?_mapValues (fun v : Nat => (v : ℚ) /
        ((if sd.total_trees_counted = 0 then 1 else sd.total_trees_counted : ℕ) : ℚ))
        sd.complemented_split_counts m,
      hm, hmax]
    rfl

/-- C2 witness: in the concrete reachable state (one tree counted), the
frequency of mask 1 reads as `1 / max(1, 1)`. -/
theorem claim_C2_witness :
    (dictGet? exState1.split_counts 1 = some 1 ∧ 0 < 1) ∧
    dictGet? (SplitDistribution.get_split_frequencies exState1).1 1
      = some ((1 : ℚ) / ((max exState1.total_trees_counted 1 : ℕ) : ℚ)) :=
  ⟨⟨rfl, by decide⟩,
   (claim_C2_frequencies exState1 reachable_exState1 1 1).2.1 rfl (by decide)⟩

end DendroPySplits
